import Mathlib

/-!
Verification development for the school/students batched nested-element
update service.  The code model embeds `src/index.js` (the PUT handler's
per-entry `updateOne` loop, the GET handler, and the seeded collection);
the spec model embeds the Merge Planner / Update Coordinator engine of the
design document, which is absent from the source.
-/

/-- JSON-like scalar value carried in a record's attribute mapping. -/
inductive JValue where
  | str : String → JValue
  | num : Nat → JValue
deriving DecidableEq

/-- Attribute mapping of a record: an ordered field list, opaque to the engine. -/
abbrev Attrs := List (String × JValue)

/-- ChildRecord (a student): a key (`studentId`) plus an attribute mapping
(`name`, `age`, `email`, ...).  The same shape serves as a PatchEntry: a
`childKey` plus a complete replacement attribute mapping. -/
structure ChildRecord where
  key : String
  attrs : Attrs
deriving DecidableEq

/-- PatchEntry: a childKey plus complete replacement attributes. -/
abbrev PatchEntry := ChildRecord

/-- PatchSet: ordered sequence of PatchEntry for one parent. -/
abbrev PatchSet := List PatchEntry

/-- Keys of a children sequence, in order. -/
def childKeys (cs : List ChildRecord) : List String := cs.map (·.key)

/-- Embedding of one `updateOne({"students.studentId": student.studentId},
{$set: {"students.$": student}})` on the students array: the positional
operator replaces the first array element whose `studentId` matches the
filter with the whole incoming student object; with no match the array is
unchanged. -/
def updateOne (students : List ChildRecord) (student : PatchEntry) : List ChildRecord :=
  match students with
  | [] => []
  | c :: rest => if c.key = student.key then student :: rest else c :: updateOne rest student

/-- Effect of the PUT handler's `for (const student of req.body)` loop on one
school's students array, with the issued `updateOne` commands taking effect
in submission order. -/
def applyPatchSet (students : List ChildRecord) (ps : PatchSet) : List ChildRecord :=
  ps.foldl updateOne students

theorem childKeys_updateOne (cs : List ChildRecord) (p : PatchEntry) :
    childKeys (updateOne cs p) = childKeys cs := by
  induction cs with
  | nil => rfl
  | cons c rest ih =>
    by_cases h : c.key = p.key
    · simp [updateOne, h, childKeys]
    · simpa [updateOne, h, childKeys] using ih

theorem length_updateOne (cs : List ChildRecord) (p : PatchEntry) :
    (updateOne cs p).length = cs.length := by
  have := childKeys_updateOne cs p
  simpa [childKeys] using congrArg List.length this

theorem updateOne_of_not_mem (cs : List ChildRecord) (p : PatchEntry)
    (h : p.key ∉ childKeys cs) : updateOne cs p = cs := by
  induction cs with
  | nil => rfl
  | cons c rest ih =>
    simp [childKeys] at h
    have h1 : c.key ≠ p.key := fun hc => h.1 hc.symm
    have h2 : p.key ∉ childKeys rest := by simp [childKeys]; exact h.2
    simp [updateOne, h1, ih h2]

theorem childKeys_applyPatchSet (cs : List ChildRecord) (ps : PatchSet) :
    childKeys (applyPatchSet cs ps) = childKeys cs := by
  induction ps generalizing cs with
  | nil => rfl
  | cons p rest ih =>
    simpa [applyPatchSet, childKeys_updateOne] using
      (ih (updateOne cs p)).trans (childKeys_updateOne cs p)

theorem length_applyPatchSet (cs : List ChildRecord) (ps : PatchSet) :
    (applyPatchSet cs ps).length = cs.length := by
  have := childKeys_applyPatchSet cs ps
  simpa [childKeys] using congrArg List.length this

theorem updateOne_getElem_of_key_ne (cs : List ChildRecord) (p : PatchEntry) :
    ∀ (i : Nat) (c : ChildRecord), cs[i]? = some c → c.key ≠ p.key →
      (updateOne cs p)[i]? = some c := by
  induction cs with
  | nil => intro i c h _; simp at h
  | cons hd rest ih =>
    intro i c h hne
    by_cases hk : hd.key = p.key
    · cases i with
      | zero =>
        simp at h
        exact absurd (h ▸ hk) hne
      | succ j => simpa [updateOne, hk] using h
    · cases i with
      | zero => simpa [updateOne, hk] using h
      | succ j =>
        simp [updateOne, hk]
        exact ih j c (by simpa using h) hne

theorem applyPatchSet_append (cs : List ChildRecord) (ps qs : PatchSet) :
    applyPatchSet cs (ps ++ qs) = applyPatchSet (applyPatchSet cs ps) qs := by
  simp [applyPatchSet]

theorem find_updateOne_self (cs : List ChildRecord) (p : PatchEntry)
    (h : p.key ∈ childKeys cs) :
    (updateOne cs p).find? (fun c => c.key == p.key) = some p := by
  induction cs with
  | nil => simp [childKeys] at h
  | cons c rest ih =>
    by_cases hk : c.key = p.key
    · simp [updateOne, hk, List.find?]
    · have hm : p.key ∈ childKeys rest := by
        simp [childKeys] at h ⊢
        rcases h with h | h
        · exact absurd h.symm hk
        · exact h
      have hpred : (c.key == p.key) = false := by simp [hk]
      simp [updateOne, hk, List.find?, hpred, ih hm]

theorem find_updateOne_other (cs : List ChildRecord) (a : PatchEntry) (k : String)
    (h : a.key ≠ k) :
    (updateOne cs a).find? (fun c => c.key == k) = cs.find? (fun c => c.key == k) := by
  induction cs with
  | nil => rfl
  | cons c rest ih =>
    by_cases hk : c.key = a.key
    · have h1 : (a.key == k) = false := by simp [h]
      have h2 : (c.key == k) = false := by simp [hk, h]
      simp [updateOne, hk, List.find?, h1, h2]
    · by_cases hck : c.key = k
      · have h2 : (c.key == k) = true := by simp [hck]
        simp [updateOne, hk, List.find?, h2]
      · have h2 : (c.key == k) = false := by simp [hck]
        simp [updateOne, hk, List.find?, h2, ih]

/-- C5: last-wins tie-break — when the PatchSet contains entries with the
same childKey (in particular two or more, with different attributes), the
matching child in the applied result carries the whole last such entry in
PatchSet sequence order, hence its attributes. -/
theorem applyPatchSet_last_wins (cs : List ChildRecord) (ps : PatchSet) (k : String)
    (e : PatchEntry) (hmem : k ∈ childKeys cs)
    (hlast : (ps.filter (fun x => x.key == k)).getLast? = some e) :
    (applyPatchSet cs ps).find? (fun c => c.key == k) = some e := by
  revert hlast
  induction ps using List.reverseRecOn with
  | nil => intro hlast; simp at hlast
  | append_singleton ps a ih =>
    intro hlast
    by_cases hk : a.key = k
    · have hfilter : (ps ++ [a]).filter (fun x => x.key == k)
          = ps.filter (fun x => x.key == k) ++ [a] := by
        simp [List.filter_append, hk]
      rw [hfilter, List.getLast?_concat] at hlast
      have hea : e = a := by injection hlast with h; exact h.symm
      rw [hea, applyPatchSet_append]
      have hstep : applyPatchSet (applyPatchSet cs ps) [a]
          = updateOne (applyPatchSet cs ps) a := rfl
      rw [hstep]
      have hm : a.key ∈ childKeys (applyPatchSet cs ps) := by
        rw [childKeys_applyPatchSet]; exact hk ▸ hmem
      rw [← hk]
      exact find_updateOne_self _ _ hm
    · have hfilter : (ps ++ [a]).filter (fun x => x.key == k)
          = ps.filter (fun x => x.key == k) := by
        simp [List.filter_append, hk]
      rw [hfilter] at hlast
      rw [applyPatchSet_append]
      have hstep : applyPatchSet (applyPatchSet cs ps) [a]
          = updateOne (applyPatchSet cs ps) a := rfl
      rw [hstep, find_updateOne_other _ _ _ hk]
      exact ih hlast

theorem applyPatchSet_noop (cs : List ChildRecord) (ps1 ps2 : PatchSet) (e : PatchEntry)
    (h : e.key ∉ childKeys cs) :
    applyPatchSet cs (ps1 ++ e :: ps2) = applyPatchSet cs (ps1 ++ ps2) := by
  have h1 : e.key ∉ childKeys (applyPatchSet cs ps1) := by
    rw [childKeys_applyPatchSet]; exact h
  calc applyPatchSet cs (ps1 ++ e :: ps2)
      = applyPatchSet (updateOne (applyPatchSet cs ps1) e) ps2 := by
        simp [applyPatchSet, List.foldl_append]
    _ = applyPatchSet (applyPatchSet cs ps1) ps2 := by
        rw [updateOne_of_not_mem _ _ h1]
    _ = applyPatchSet cs (ps1 ++ ps2) := (applyPatchSet_append cs ps1 ps2).symm

/-- School document as stored in the `schools` collection and seeded by
`populateDB`: scalar fields plus the embedded `students` array. -/
structure School where
  schoolId : String
  name : String
  address : String
  city : String
  students : List ChildRecord
deriving DecidableEq

/-- The `schools` collection: an ordered sequence of school documents. -/
abbrev SchoolCollection := List School

/-- Embedding of `collection("schools").findOne({schoolId: sid})`: the first
document whose `schoolId` matches, if any. -/
def findOne (coll : SchoolCollection) (sid : String) : Option School :=
  match coll with
  | [] => none
  | s :: rest => if s.schoolId = sid then some s else findOne rest sid

/-- Embedding of one collection-level `updateOne` issued by the PUT handler:
its filter is `{schoolId: sid, "students.studentId": student.studentId}`, so
it updates the first document matching both conditions, replacing the first
matching array element via the positional operator; with no matching
document it is a no-op. -/
def updateOneSchool (coll : SchoolCollection) (sid : String) (student : PatchEntry) :
    SchoolCollection :=
  match coll with
  | [] => []
  | s :: rest =>
    if s.schoolId = sid ∧ student.key ∈ childKeys s.students then
      { s with students := updateOne s.students student } :: rest
    else s :: updateOneSchool rest sid student

/-- Update commands issued by the PUT handler's loop, one per body entry, in
body order, each carrying the path's schoolId and the entry. -/
def issuedUpdates (sid : String) (body : List PatchEntry) : List (String × PatchEntry) :=
  body.map (fun st => (sid, st))

/-- Embedding of the PUT `/schools/:schoolId/students` handler: it issues one
`updateOneSchool` per body entry (not awaited in the source; their effect is
modelled in submission order) and sends the response `"Students updated"`
unconditionally — the response is a constant that consults neither the
collection nor the outcome of any update. -/
def putStudents (coll : SchoolCollection) (sid : String) (body : List PatchEntry) :
    String × SchoolCollection :=
  ("Students updated",
    (issuedUpdates sid body).foldl (fun c cmd => updateOneSchool c cmd.1 cmd.2) coll)

/-- Runtime error raised by the JavaScript handler body. -/
inductive JsRuntimeError where
  | typeError : String → JsRuntimeError
deriving DecidableEq

/-- Embedding of the GET `/schools/:schoolId/students` handler: `findOne`
resolves to the school or to null; the handler then reads `school.students`
unconditionally, which on null throws a TypeError inside the async handler
instead of producing any HTTP reply. -/
def getStudents (coll : SchoolCollection) (sid : String) :
    Except JsRuntimeError (List ChildRecord) :=
  match findOne coll sid with
  | none => .error (.typeError "Cannot read properties of null")
  | some s => .ok s.students

/-- Seed data of `populateDB`: students `student0` .. `student999`. -/
def seedStudents : List ChildRecord :=
  (List.range 1000).map (fun i =>
    { key := "student" ++ toString i,
      attrs := [("name", JValue.str ("Student " ++ toString i)),
                ("age", JValue.num 20),
                ("email", JValue.str ("student" ++ toString i ++ "@example.com"))] })

/-- Embedding of `populateDB`: the collection is dropped and re-seeded with
the single school document `schoolId = "1"`. -/
def populateDB : SchoolCollection :=
  [{ schoolId := "1", name := "School 1", address := "123 Main St",
     city := "New York", students := seedStudents }]

/-- Modelled from the spec: ParentRecord (§3) — the Update Coordinator engine
is absent from the source (the handler is the naive loop above), so the
record carries the spec's monotonically increasing `version` counter for
optimistic concurrency, besides `parentId`, opaque scalar attributes and the
ordered `children` sequence. -/
structure ParentRecord where
  parentId : String
  attrs : Attrs
  version : Nat
  children : List ChildRecord
deriving DecidableEq

/-- Modelled from the spec: the backing store seen through the Store Adapter,
an ordered collection of parent records addressed by `parentId`. -/
abbrev Store := List ParentRecord

/-- Modelled from the spec: `ReadParent(parentId)` (§6) — read the first
stored parent record with the given id, or NotFound (none). -/
def ReadParent (store : Store) (pid : String) : Option ParentRecord :=
  match store with
  | [] => none
  | p :: rest => if p.parentId = pid then some p else ReadParent rest pid

/-- Modelled from the spec: the store after the conditional write commits —
the first record with the given id has its whole children sequence replaced
and its version incremented, in one step. -/
def writeStore (store : Store) (pid : String) (newChildren : List ChildRecord) : Store :=
  match store with
  | [] => []
  | p :: rest =>
    if p.parentId = pid then
      { p with children := newChildren, version := p.version + 1 } :: rest
    else p :: writeStore rest pid newChildren

/-- Modelled from the spec: outcome of `ConditionalWriteChildren` (§6). -/
inductive WriteOutcome where
  | success : Store → WriteOutcome
  | versionMismatch : WriteOutcome
  | notFound : WriteOutcome
deriving DecidableEq

/-- Modelled from the spec:
`ConditionalWriteChildren(parentId, newChildren, expectedVersion)` (§6) —
replace `children` and increment `version` only if the stored version still
equals the expected one (compare-and-swap semantics). -/
def ConditionalWriteChildren (store : Store) (pid : String)
    (newChildren : List ChildRecord) (expectedVersion : Nat) : WriteOutcome :=
  match ReadParent store pid with
  | none => .notFound
  | some p =>
    if p.version = expectedVersion then .success (writeStore store pid newChildren)
    else .versionMismatch

/-- Deduplication of a key list keeping first occurrences, with an
accumulator of keys already seen. -/
def dedupKeysAux (seen : List String) : List String → List String
  | [] => []
  | k :: ks => if k ∈ seen then dedupKeysAux seen ks else k :: dedupKeysAux (k :: seen) ks

/-- Distinct keys of a key list, in first-occurrence order. -/
def dedupKeys (ks : List String) : List String := dedupKeysAux [] ks

/-- Modelled from the spec: the distinct PatchEntry keys that match an
existing child (§4.2 step 4 counts these). -/
def matchedKeys (children : List ChildRecord) (ps : PatchSet) : List String :=
  (dedupKeys (ps.map (·.key))).filter (fun k => decide (k ∈ childKeys children))

/-- Modelled from the spec: the PatchEntry keys that had no match (§4.2
step 4 reports these as `skippedKeys`). -/
def skippedOf (children : List ChildRecord) (ps : PatchSet) : List String :=
  (dedupKeys (ps.map (·.key))).filter (fun k => decide (k ∉ childKeys children))

/-- Insert-or-overwrite into the key-indexed association list. -/
def upsert (idx : List (String × Attrs)) (k : String) (v : Attrs) : List (String × Attrs) :=
  match idx with
  | [] => [(k, v)]
  | (k0, v0) :: rest => if k0 = k then (k, v) :: rest else (k0, v0) :: upsert rest k v

/-- Lookup in the key-indexed association list. -/
def lookupIdx (k : String) : List (String × Attrs) → Option Attrs
  | [] => none
  | (k0, v) :: rest => if k0 = k then some v else lookupIdx k rest

/-- Modelled from the spec: the Merge Planner's index from childKey to the
latest PatchEntry, built by a left-to-right scan overwriting on duplicate
keys, so the last occurrence wins (§4.1). -/
def patchIndex (ps : PatchSet) : List (String × Attrs) :=
  ps.foldl (fun idx e => upsert idx e.key e.attrs) []

/-- Modelled from the spec: `MergePlanner.Plan(currentChildren, patch)`
(§4.1) — iterate `currentChildren` in original order; a child whose key is in
the index gets the patch's attributes (full replace, key immutable), any
other child is emitted unchanged; patch keys with no match are dropped. -/
def Plan (currentChildren : List ChildRecord) (patch : PatchSet) : List ChildRecord :=
  currentChildren.map (fun c =>
    match lookupIdx c.key (patchIndex patch) with
    | some a => { key := c.key, attrs := a }
    | none => c)

/-- Modelled from the spec: successful Apply result (§4.2). -/
structure ApplyResult where
  appliedCount : Nat
  skippedKeys : List String
deriving DecidableEq

/-- Modelled from the spec: error taxonomy of the Update Coordinator (§7). -/
inductive ErrorKind where
  | NotFound
  | Conflict
  | Timeout
  | StoreUnavailable
  | InvalidInput
deriving DecidableEq

/-- Modelled from the spec: one attempt of the optimistic read-modify-write
cycle (§4.2 steps 1-4): read, plan, conditional write; `none` signals a
version mismatch to be retried by the loop. -/
def applyAttempt (store : Store) (pid : String) (ps : PatchSet) :
    Option (Except ErrorKind ApplyResult × Store) :=
  match ReadParent store pid with
  | none => some (.error .NotFound, store)
  | some p =>
    match ConditionalWriteChildren store pid (Plan p.children ps) p.version with
    | .success store' =>
      some (.ok ⟨(matchedKeys p.children ps).length, skippedOf p.children ps⟩, store')
    | .versionMismatch => none
    | .notFound => some (.error .NotFound, store)

/-- Modelled from the spec: the bounded retry loop (§4.2 steps 5-6) — a
version mismatch retries from a fresh read up to the attempt budget, after
which the Apply fails with Conflict; terminal outcomes return immediately.
The store is threaded explicitly, unchanged on failure. -/
def ApplyLoop : Nat → Store → String → PatchSet → Except ErrorKind ApplyResult × Store
  | 0, store, _, _ => (.error .Conflict, store)
  | n + 1, store, pid, ps =>
    match applyAttempt store pid ps with
    | some r => r
    | none => ApplyLoop n store pid ps

/-- Modelled from the spec: `UpdateCoordinator.Apply(parentId, PatchSet)`
(§4.2) with the default attempt budget of 5. -/
def Apply (store : Store) (pid : String) (ps : PatchSet) :
    Except ErrorKind ApplyResult × Store :=
  ApplyLoop 5 store pid ps

/-- Modelled from the spec: control point of one Apply between its two
suspension points (§5) — before the read, between read and conditional
write (holding the snapshot), or finished. -/
inductive CoordPhase where
  | start : CoordPhase
  | planned : ParentRecord → CoordPhase
  | done : Except ErrorKind ApplyResult → CoordPhase

/-- Modelled from the spec: small-step view of one Apply, with the read and
the conditional write as the only steps touching the store; an observer may
read the store between any two steps. -/
def coordStep (pid : String) (ps : PatchSet) : CoordPhase × Store → CoordPhase × Store
  | (.start, store) =>
    match ReadParent store pid with
    | none => (.done (.error .NotFound), store)
    | some p => (.planned p, store)
  | (.planned p, store) =>
    match ConditionalWriteChildren store pid (Plan p.children ps) p.version with
    | .success store' =>
      (.done (.ok ⟨(matchedKeys p.children ps).length, skippedOf p.children ps⟩), store')
    | .versionMismatch => (.start, store)
    | .notFound => (.done (.error .NotFound), store)
  | (.done r, store) => (.done r, store)

/-- What a concurrent reader observes for a parent: its current children
sequence, if the parent exists. -/
def observeChildren (store : Store) (pid : String) : Option (List ChildRecord) :=
  (ReadParent store pid).map (·.children)

theorem ReadParent_writeStore (store : Store) (pid : String) (cs : List ChildRecord) :
    ReadParent (writeStore store pid cs) pid
      = (ReadParent store pid).map (fun p => { p with children := cs, version := p.version + 1 }) := by
  induction store with
  | nil => rfl
  | cons p rest ih =>
    by_cases h : p.parentId = pid
    · simp [writeStore, ReadParent, h]
    · simp [writeStore, ReadParent, h, ih]

theorem applyAttempt_of_found {store : Store} {pid : String} {p : ParentRecord}
    (ps : PatchSet) (h : ReadParent store pid = some p) :
    applyAttempt store pid ps
      = some (.ok ⟨(matchedKeys p.children ps).length, skippedOf p.children ps⟩,
          writeStore store pid (Plan p.children ps)) := by
  unfold applyAttempt ConditionalWriteChildren
  rw [h]
  simp

theorem applyAttempt_of_notFound {store : Store} {pid : String} (ps : PatchSet)
    (h : ReadParent store pid = none) :
    applyAttempt store pid ps = some (.error .NotFound, store) := by
  unfold applyAttempt
  rw [h]

theorem Apply_of_found {store : Store} {pid : String} {p : ParentRecord} (ps : PatchSet)
    (h : ReadParent store pid = some p) :
    Apply store pid ps
      = (.ok ⟨(matchedKeys p.children ps).length, skippedOf p.children ps⟩,
          writeStore store pid (Plan p.children ps)) := by
  unfold Apply ApplyLoop
  rw [applyAttempt_of_found ps h]

theorem Apply_of_notFound {store : Store} {pid : String} (ps : PatchSet)
    (h : ReadParent store pid = none) :
    Apply store pid ps = (.error .NotFound, store) := by
  unfold Apply ApplyLoop
  rw [applyAttempt_of_notFound ps h]

theorem childKeys_Plan (cs : List ChildRecord) (ps : PatchSet) :
    childKeys (Plan cs ps) = childKeys cs := by
  induction cs with
  | nil => rfl
  | cons c rest ih =>
    cases h : lookupIdx c.key (patchIndex ps) <;>
      simp_all [Plan, childKeys, h]

theorem Plan_idem (cs : List ChildRecord) (ps : PatchSet) :
    Plan (Plan cs ps) ps = Plan cs ps := by
  induction cs with
  | nil => rfl
  | cons c rest ih =>
    cases h : lookupIdx c.key (patchIndex ps) with
    | none => simp [Plan, h] at ih ⊢; exact ih
    | some a => simp [Plan, h] at ih ⊢; exact ih

theorem mem_dedupKeysAux (l : List String) :
    ∀ (seen : List String) (a : String), a ∈ dedupKeysAux seen l ↔ a ∈ l ∧ a ∉ seen := by
  induction l with
  | nil => intro seen a; simp [dedupKeysAux]
  | cons k ks ih =>
    intro seen a
    by_cases h : k ∈ seen
    · simp only [dedupKeysAux, if_pos h, ih, List.mem_cons]
      constructor
      · rintro ⟨ha, hs⟩; exact ⟨Or.inr ha, hs⟩
      · rintro ⟨ha | ha, hs⟩
        · exact absurd (ha ▸ h) hs
        · exact ⟨ha, hs⟩
    · simp only [dedupKeysAux, if_neg h, List.mem_cons, ih, not_or]
      constructor
      · rintro (rfl | ⟨ha, hs⟩)
        · exact ⟨Or.inl rfl, h⟩
        · exact ⟨Or.inr ha, hs.2⟩
      · rintro ⟨rfl | ha, hs⟩
        · exact Or.inl rfl
        · by_cases hak : a = k
          · exact Or.inl hak
          · exact Or.inr ⟨ha, hak, hs⟩

theorem mem_dedupKeys (ks : List String) (a : String) : a ∈ dedupKeys ks ↔ a ∈ ks := by
  simp [dedupKeys, mem_dedupKeysAux]

theorem nodup_dedupKeysAux (l : List String) :
    ∀ seen : List String, (dedupKeysAux seen l).Nodup := by
  induction l with
  | nil => intro seen; simp [dedupKeysAux]
  | cons k ks ih =>
    intro seen
    by_cases h : k ∈ seen
    · simpa [dedupKeysAux, h] using ih seen
    · simp only [dedupKeysAux, if_neg h]
      refine List.nodup_cons.mpr ⟨?_, ih _⟩
      rw [mem_dedupKeysAux]
      simp

theorem nodup_dedupKeys (ks : List String) : (dedupKeys ks).Nodup :=
  nodup_dedupKeysAux ks []

theorem mem_matchedKeys (children : List ChildRecord) (ps : PatchSet) (k : String) :
    k ∈ matchedKeys children ps ↔ k ∈ ps.map (·.key) ∧ k ∈ childKeys children := by
  unfold matchedKeys
  rw [List.mem_filter, mem_dedupKeys]
  simp

theorem mem_skippedOf (children : List ChildRecord) (ps : PatchSet) (k : String) :
    k ∈ skippedOf children ps ↔ k ∈ ps.map (·.key) ∧ k ∉ childKeys children := by
  unfold skippedOf
  rw [List.mem_filter, mem_dedupKeys]
  simp

theorem length_matchedKeys (children : List ChildRecord) (ps : PatchSet) :
    (matchedKeys children ps).length
      = ((ps.map (·.key)).toFinset ∩ (childKeys children).toFinset).card := by
  have hnodup : (matchedKeys children ps).Nodup :=
    (nodup_dedupKeys _).filter _
  rw [← List.toFinset_card_of_nodup hnodup]
  congr 1
  ext k
  simp [Finset.mem_inter, List.mem_toFinset, mem_matchedKeys]

theorem applyAttempt_error {store : Store} {pid : String} {ps : PatchSet}
    {e : ErrorKind} {store' : Store}
    (h : applyAttempt store pid ps = some (.error e, store')) : store' = store := by
  cases hr : ReadParent store pid with
  | none =>
    rw [applyAttempt_of_notFound ps hr] at h
    simp at h
    exact h.2.symm
  | some p =>
    rw [applyAttempt_of_found ps hr] at h
    simp at h

theorem ApplyLoop_error_store {pid : String} {ps : PatchSet} {e : ErrorKind} :
    ∀ {n : Nat} {store store' : Store},
      ApplyLoop n store pid ps = (.error e, store') → store' = store := by
  intro n
  induction n with
  | zero =>
    intro store store' h
    simp [ApplyLoop] at h
    exact h.2.symm
  | succ n ih =>
    intro store store' h
    cases ha : applyAttempt store pid ps with
    | some r =>
      have h' : r = (.error e, store') := by
        unfold ApplyLoop at h
        rw [ha] at h
        simpa using h
      exact applyAttempt_error (h' ▸ ha)
    | none =>
      have h' : ApplyLoop n store pid ps = (.error e, store') := by
        unfold ApplyLoop at h
        rw [ha] at h
        simpa using h
      exact ih h'

/-- Invariant of one sequential Apply execution started on `store0`: the
store is either untouched or carries exactly the whole planned children
sequence for the snapshot that was read, and a held snapshot matches the
initial read. -/
def coordInv (store0 : Store) (pid : String) (ps : PatchSet) : CoordPhase × Store → Prop :=
  fun cs =>
    (cs.1 = .start ∧ cs.2 = store0) ∨
    (∃ p, cs.1 = .planned p ∧ cs.2 = store0 ∧ ReadParent store0 pid = some p) ∨
    (∃ r, cs.1 = .done r ∧
      (cs.2 = store0 ∨
        ∃ p, ReadParent store0 pid = some p ∧
          cs.2 = writeStore store0 pid (Plan p.children ps)))

theorem coordInv_step (store0 : Store) (pid : String) (ps : PatchSet)
    (s : CoordPhase × Store) (h : coordInv store0 pid ps s) :
    coordInv store0 pid ps (coordStep pid ps s) := by
  obtain ⟨ph, st⟩ := s
  rcases h with ⟨h1, h2⟩ | ⟨p, h1, h2, h3⟩ | ⟨r, h1, h2⟩
  · simp only at h1 h2
    subst h1; rw [h2]
    cases hr : ReadParent store0 pid with
    | none =>
      have hstep : coordStep pid ps (.start, store0) = (.done (.error .NotFound), store0) := by
        simp [coordStep, hr]
      rw [hstep]
      exact Or.inr (Or.inr ⟨_, rfl, Or.inl rfl⟩)
    | some p =>
      have hstep : coordStep pid ps (.start, store0) = (.planned p, store0) := by
        simp [coordStep, hr]
      rw [hstep]
      exact Or.inr (Or.inl ⟨p, rfl, rfl, hr⟩)
  · simp only at h1 h2
    subst h1; rw [h2]
    have hw : ConditionalWriteChildren store0 pid (Plan p.children ps) p.version
        = .success (writeStore store0 pid (Plan p.children ps)) := by
      unfold ConditionalWriteChildren
      rw [h3]
      simp
    have hstep : coordStep pid ps (.planned p, store0)
        = (.done (.ok ⟨(matchedKeys p.children ps).length, skippedOf p.children ps⟩),
            writeStore store0 pid (Plan p.children ps)) := by
      simp [coordStep, hw]
    rw [hstep]
    exact Or.inr (Or.inr ⟨_, rfl, Or.inr ⟨p, h3, rfl⟩⟩)
  · simp only at h1
    subst h1
    exact Or.inr (Or.inr ⟨r, rfl, h2⟩)

theorem coordInv_iterate (store0 : Store) (pid : String) (ps : PatchSet) (n : Nat) :
    coordInv store0 pid ps ((coordStep pid ps)^[n] (.start, store0)) := by
  induction n with
  | zero => exact Or.inl ⟨rfl, rfl⟩
  | succ n ih =>
    rw [Function.iterate_succ_apply']
    exact coordInv_step _ _ _ _ ih

/-- C1: atomicity of Apply — at every point of an Apply execution, an
observer reading the parent's children sequence sees either the sequence as
it was before the Apply or the sequence with the entire patch set applied
(the full Merge Planner output), never a partially applied batch. -/
theorem apply_atomic_observation (store0 : Store) (pid : String) (ps : PatchSet) (n : Nat) :
    observeChildren ((coordStep pid ps)^[n] (.start, store0)).2 pid
        = observeChildren store0 pid ∨
      ∃ p, ReadParent store0 pid = some p ∧
        observeChildren ((coordStep pid ps)^[n] (.start, store0)).2 pid
          = some (Plan p.children ps) := by
  have hinv := coordInv_iterate store0 pid ps n
  rcases hinv with ⟨h1, h2⟩ | ⟨p, h1, h2, h3⟩ | ⟨r, h1, h2⟩
  · rw [h2]; exact Or.inl rfl
  · rw [h2]; exact Or.inl rfl
  · rcases h2 with h2 | ⟨p, hp, h2⟩
    · rw [h2]; exact Or.inl rfl
    · right
      refine ⟨p, hp, ?_⟩
      rw [h2]
      unfold observeChildren
      rw [ReadParent_writeStore, hp]
      rfl

/-- C2: version counter discipline — a successful Apply increments the
parent record's version by exactly 1, and a failed Apply returns the store
unchanged, so the version field is untouched. -/
theorem apply_version_discipline (store : Store) (pid : String) (ps : PatchSet) :
    (∀ (res : ApplyResult) (store' : Store), Apply store pid ps = (.ok res, store') →
      ∃ p p', ReadParent store pid = some p ∧ ReadParent store' pid = some p' ∧
        p'.version = p.version + 1) ∧
    (∀ (e : ErrorKind) (store' : Store), Apply store pid ps = (.error e, store') →
      store' = store) := by
  constructor
  · intro res store' h
    cases hr : ReadParent store pid with
    | none =>
      rw [Apply_of_notFound ps hr] at h
      simp at h
    | some p =>
      rw [Apply_of_found ps hr] at h
      have h2 : store' = writeStore store pid (Plan p.children ps) := by
        have := congrArg Prod.snd h
        simpa using this.symm
      subst h2
      refine ⟨p, { p with children := Plan p.children ps, version := p.version + 1 },
        rfl, ?_, rfl⟩
      rw [ReadParent_writeStore, hr]
      rfl
  · intro e store' h
    exact ApplyLoop_error_store h

/-- Spec's worked example (§8): parent `"1"` at version 5 with children s0, s1. -/
def exampleChildren : List ChildRecord :=
  [{ key := "s0", attrs := [("name", JValue.str "A")] },
   { key := "s1", attrs := [("name", JValue.str "B")] }]

/-- Spec's worked example parent record. -/
def exampleParent : ParentRecord :=
  { parentId := "1", attrs := [], version := 5, children := exampleChildren }

/-- Spec's worked example store. -/
def exampleStore : Store := [exampleParent]

/-- Spec's worked example PatchSet touching s0 (matched) and sX (no match). -/
def examplePatch : PatchSet :=
  [{ key := "s0", attrs := [("name", JValue.str "A2")] },
   { key := "sX", attrs := [("name", JValue.str "Z")] }]

/-- Store the spec's example Apply must leave behind: version 6, s0 renamed. -/
def exampleStoreAfter : Store :=
  [{ parentId := "1", attrs := [], version := 6,
     children := [{ key := "s0", attrs := [("name", JValue.str "A2")] },
                  { key := "s1", attrs := [("name", JValue.str "B")] }] }]

theorem apply_version_discipline_witness :
    ∃ p p', ReadParent exampleStore "1" = some p ∧
      ReadParent exampleStoreAfter "1" = some p' ∧ p'.version = p.version + 1 :=
  (apply_version_discipline exampleStore "1" examplePatch).1
    ⟨1, ["sX"]⟩ exampleStoreAfter rfl

/-- C3: Apply on an absent parent fails with the terminal error NotFound,
leaves the store unchanged, and is not retried — one attempt resolves it
whatever retry budget remains. -/
theorem apply_notFound_on_absent_parent (store : Store) (pid : String) (ps : PatchSet)
    (h : ReadParent store pid = none) :
    Apply store pid ps = (.error .NotFound, store) ∧
    ∀ n : Nat, ApplyLoop (n + 1) store pid ps = (.error .NotFound, store) := by
  constructor
  · exact Apply_of_notFound ps h
  · intro n
    unfold ApplyLoop
    rw [applyAttempt_of_notFound ps h]

theorem apply_notFound_on_absent_parent_witness :
    Apply [] "missing" [] = (.error .NotFound, ([] : Store)) ∧
    ApplyLoop 3 [] "missing" [] = (.error .NotFound, ([] : Store)) :=
  ⟨(apply_notFound_on_absent_parent [] "missing" [] rfl).1,
   (apply_notFound_on_absent_parent [] "missing" [] rfl).2 2⟩

/-- C4: order and length preservation — the children sequence produced by
applying a PatchSet has the same length and the same childKeys in the same
positions as the input sequence, and a child whose key is not touched by the
PatchSet is completely unchanged at its position (only attributes of matched
children change). -/
theorem applyPatchSet_preserves_order_and_length (cs : List ChildRecord) (ps : PatchSet) :
    childKeys (applyPatchSet cs ps) = childKeys cs ∧
    (applyPatchSet cs ps).length = cs.length ∧
    ∀ (i : Nat) (c : ChildRecord), cs[i]? = some c → c.key ∉ ps.map (·.key) →
      (applyPatchSet cs ps)[i]? = some c := by
  refine ⟨childKeys_applyPatchSet cs ps, length_applyPatchSet cs ps, ?_⟩
  induction ps generalizing cs with
  | nil => intro i c h _; simpa [applyPatchSet] using h
  | cons p rest ih =>
    intro i c h hkey
    simp only [List.map_cons, List.mem_cons, not_or] at hkey
    have hstep : applyPatchSet cs (p :: rest) = applyPatchSet (updateOne cs p) rest := rfl
    rw [hstep]
    exact ih (updateOne cs p) i c (updateOne_getElem_of_key_ne cs p i c h hkey.1) hkey.2

/-- Children used by the small concrete check inputs below. -/
def wChildren : List ChildRecord :=
  [{ key := "a", attrs := [] }, { key := "b", attrs := [] }]

/-- Single-entry patch touching key a. -/
def wPatch : PatchSet := [{ key := "a", attrs := [("name", JValue.str "x")] }]

/-- Patch with a duplicated key a and differing attributes. -/
def wPatchDup : PatchSet :=
  [{ key := "a", attrs := [("n", JValue.str "1")] },
   { key := "a", attrs := [("n", JValue.str "2")] }]

theorem applyPatchSet_preserves_order_and_length_witness :
    childKeys (applyPatchSet wChildren wPatch) = childKeys wChildren ∧
    (applyPatchSet wChildren wPatch)[1]? = some { key := "b", attrs := [] } :=
  ⟨(applyPatchSet_preserves_order_and_length wChildren wPatch).1,
   (applyPatchSet_preserves_order_and_length wChildren wPatch).2.2 1
     { key := "b", attrs := [] } rfl (by decide)⟩

theorem applyPatchSet_last_wins_witness :
    (applyPatchSet wChildren wPatchDup).find? (fun c => c.key == "a")
      = some { key := "a", attrs := [("n", JValue.str "2")] } :=
  applyPatchSet_last_wins wChildren wPatchDup "a"
    { key := "a", attrs := [("n", JValue.str "2")] } (by decide) (by decide)

/-- C6: no-op on unmatched key — a patch entry whose key matches no child
produces exactly the result of the PatchSet with that entry omitted, never
creates a new child (the length stays that of the input), and the batch
never errors (the operation is total). -/
theorem applyPatchSet_noop_on_unmatched_key (cs : List ChildRecord) (ps1 ps2 : PatchSet)
    (e : PatchEntry) (h : e.key ∉ childKeys cs) :
    applyPatchSet cs (ps1 ++ e :: ps2) = applyPatchSet cs (ps1 ++ ps2) ∧
    (applyPatchSet cs (ps1 ++ e :: ps2)).length = cs.length :=
  ⟨applyPatchSet_noop cs ps1 ps2 e h, length_applyPatchSet _ _⟩

theorem applyPatchSet_noop_on_unmatched_key_witness :
    applyPatchSet wChildren (wPatch ++ { key := "zz", attrs := [] } :: []) =
      applyPatchSet wChildren (wPatch ++ []) ∧
    (applyPatchSet wChildren (wPatch ++ { key := "zz", attrs := [] } :: [])).length =
      wChildren.length :=
  applyPatchSet_noop_on_unmatched_key wChildren wPatch []
    { key := "zz", attrs := [] } (by decide)

/-- C7: result shape on success — a successful Apply returns appliedCount
equal to the number of distinct patch keys matching an existing child and
skippedKeys listing exactly (without duplicates) the patch keys with no
match.  The spec's worked example instantiates this at appliedCount 1,
skippedKeys [sX], children [s0 renamed, s1 unchanged], version 6. -/
theorem apply_result_shape (store : Store) (pid : String) (ps : PatchSet)
    (p : ParentRecord) (hr : ReadParent store pid = some p) :
    ∃ (res : ApplyResult) (store' : Store),
      Apply store pid ps = (.ok res, store') ∧
      res.appliedCount
        = ((ps.map (·.key)).toFinset ∩ (childKeys p.children).toFinset).card ∧
      res.skippedKeys.Nodup ∧
      (∀ k, k ∈ res.skippedKeys ↔ k ∈ ps.map (·.key) ∧ k ∉ childKeys p.children) := by
  refine ⟨⟨(matchedKeys p.children ps).length, skippedOf p.children ps⟩,
    writeStore store pid (Plan p.children ps), Apply_of_found ps hr, ?_, ?_, ?_⟩
  · exact length_matchedKeys p.children ps
  · exact (nodup_dedupKeys _).filter _
  · intro k
    exact mem_skippedOf p.children ps k

theorem apply_result_shape_witness :
    Apply exampleStore "1" examplePatch = (.ok ⟨1, ["sX"]⟩, exampleStoreAfter) ∧
    (1 : Nat)
      = ((examplePatch.map (·.key)).toFinset
          ∩ (childKeys exampleParent.children).toFinset).card := by
  obtain ⟨res, store', h1, h2, hnd, hiff⟩ :=
    apply_result_shape exampleStore "1" examplePatch exampleParent rfl
  have hcalc : Apply exampleStore "1" examplePatch
      = (.ok ⟨1, ["sX"]⟩, exampleStoreAfter) := rfl
  refine ⟨hcalc, ?_⟩
  rw [hcalc] at h1
  have hres : (⟨1, ["sX"]⟩ : ApplyResult) = res := by
    have := congrArg Prod.fst h1
    simpa using this
  rw [← hres] at h2
  simpa using h2

/-- C8: idempotence of repeated Apply — with no interleaving writers,
applying the same PatchSet twice in sequence succeeds twice, leaves the same
final children sequence as applying it once (both observations equal the
planned children of the first apply), and advances the version by exactly 2. -/
theorem apply_idempotent_twice (store : Store) (pid : String) (ps : PatchSet)
    (p : ParentRecord) (hr : ReadParent store pid = some p) :
    ∃ (r1 r2 : ApplyResult) (s1 s2 : Store),
      Apply store pid ps = (.ok r1, s1) ∧ Apply s1 pid ps = (.ok r2, s2) ∧
      observeChildren s2 pid = observeChildren s1 pid ∧
      observeChildren s1 pid = some (Plan p.children ps) ∧
      ∃ p2, ReadParent s2 pid = some p2 ∧ p2.version = p.version + 2 := by
  have h1 := Apply_of_found ps hr
  have hr1 : ReadParent (writeStore store pid (Plan p.children ps)) pid
      = some { p with children := Plan p.children ps, version := p.version + 1 } := by
    rw [ReadParent_writeStore, hr]
    rfl
  have h2 := Apply_of_found ps hr1
  refine ⟨_, _, writeStore store pid (Plan p.children ps),
    writeStore (writeStore store pid (Plan p.children ps)) pid
      (Plan (Plan p.children ps) ps), h1, h2, ?_, ?_, ?_⟩
  · unfold observeChildren
    rw [ReadParent_writeStore, hr1]
    simp [Plan_idem]
  · unfold observeChildren
    rw [hr1]
    rfl
  · exact ⟨{ p with children := Plan (Plan p.children ps) ps, version := p.version + 2 },
      by rw [ReadParent_writeStore, hr1]; rfl, rfl⟩

theorem apply_idempotent_twice_witness :
    observeChildren exampleStoreAfter "1"
      = some (Plan exampleParent.children examplePatch) := by
  obtain ⟨r1, r2, s1, s2, h1, h2, hobs, hobs1, hver⟩ :=
    apply_idempotent_twice exampleStore "1" examplePatch exampleParent rfl
  have hcalc : Apply exampleStore "1" examplePatch
      = (.ok ⟨1, ["sX"]⟩, exampleStoreAfter) := rfl
  rw [hcalc] at h1
  have hs1 : exampleStoreAfter = s1 := by
    have := congrArg Prod.snd h1
    simpa using this
  rw [hs1]
  exact hobs1

/-- C9: unconditional success response — the PUT handler issues exactly one
update command per body entry and responds "Students updated" no matter what
the collection holds; the response is the same constant on any collection
(including one with no matching school), independent of any update's
outcome. -/
theorem putStudents_unconditional_response (coll : SchoolCollection) (sid : String)
    (body : List PatchEntry) :
    (putStudents coll sid body).1 = "Students updated" ∧
    (issuedUpdates sid body).length = body.length ∧
    (putStudents coll sid body).1 = (putStudents [] sid body).1 := by
  refine ⟨rfl, ?_, rfl⟩
  simp [issuedUpdates]

/-- C10: the GET handler on an absent school throws a TypeError (reading
the students property of null) inside the async handler instead of returning
any result; in particular it never produces a NotFound reply. -/
theorem getStudents_crashes_on_absent_school (coll : SchoolCollection) (sid : String)
    (h : findOne coll sid = none) :
    getStudents coll sid = .error (.typeError "Cannot read properties of null") ∧
    ∀ students : List ChildRecord, getStudents coll sid ≠ .ok students := by
  constructor
  · unfold getStudents
    rw [h]
  · intro students hok
    unfold getStudents at hok
    rw [h] at hok
    simp at hok

theorem getStudents_crashes_on_absent_school_witness :
    getStudents [] "1" = .error (.typeError "Cannot read properties of null") :=
  (getStudents_crashes_on_absent_school [] "1" rfl).1

theorem lookup_upsert (idx : List (String × Attrs)) (k k' : String) (v : Attrs) :
    lookupIdx k' (upsert idx k v) = if k = k' then some v else lookupIdx k' idx := by
  induction idx with
  | nil => simp [upsert, lookupIdx]
  | cons kv rest ih =>
    obtain ⟨k0, v0⟩ := kv
    by_cases h0 : k0 = k
    · subst h0
      by_cases h1 : k0 = k'
      · simp [upsert, lookupIdx, h1]
      · simp [upsert, lookupIdx, h1]
    · by_cases h1 : k0 = k'
      · subst h1
        have : ¬ k = k0 := fun hh => h0 hh.symm
        simp [upsert, lookupIdx, h0, this]
      · simp [upsert, lookupIdx, h0, h1, ih]

theorem patchIndex_concat (ps : PatchSet) (e : PatchEntry) :
    patchIndex (ps ++ [e]) = upsert (patchIndex ps) e.key e.attrs := by
  simp [patchIndex, List.foldl_append]

theorem lookup_patchIndex (ps : PatchSet) (k : String) :
    lookupIdx k (patchIndex ps)
      = ((ps.filter (fun e => e.key == k)).getLast?).map (·.attrs) := by
  induction ps using List.reverseRecOn with
  | nil => rfl
  | append_singleton ps a ih =>
    rw [patchIndex_concat, lookup_upsert]
    by_cases hk : a.key = k
    · have hfilter : (ps ++ [a]).filter (fun e => e.key == k)
          = ps.filter (fun e => e.key == k) ++ [a] := by
        simp [List.filter_append, hk]
      simp [hk, hfilter, List.getLast?_concat]
    · have hfilter : (ps ++ [a]).filter (fun e => e.key == k)
          = ps.filter (fun e => e.key == k) := by
        simp [List.filter_append, hk]
      simp [hk, hfilter, ih]

theorem Plan_nil (cs : List ChildRecord) : Plan cs [] = cs := by
  have : ∀ c : ChildRecord,
      (match lookupIdx c.key (patchIndex []) with
        | some a => ({ key := c.key, attrs := a } : ChildRecord)
        | none => c) = c := fun c => rfl
  simp only [Plan, this]
  exact List.map_id cs

theorem map_keyUpd_of_not_mem (a : PatchEntry) (cs : List ChildRecord)
    (h : a.key ∉ childKeys cs) :
    cs.map (fun c => if c.key = a.key then a else c) = cs := by
  induction cs with
  | nil => rfl
  | cons c rest ih =>
    simp only [childKeys, List.map_cons, List.mem_cons, not_or] at h
    have h1 : c.key ≠ a.key := fun hc => h.1 hc.symm
    have h2 : a.key ∉ childKeys rest := by
      simp only [childKeys]
      exact h.2
    simp [h1, ih h2]

theorem updateOne_eq_map_of_nodup (cs : List ChildRecord) (a : PatchEntry)
    (hnd : (childKeys cs).Nodup) :
    updateOne cs a = cs.map (fun c => if c.key = a.key then a else c) := by
  induction cs with
  | nil => rfl
  | cons c rest ih =>
    simp only [childKeys, List.map_cons, List.nodup_cons] at hnd
    by_cases hk : c.key = a.key
    · have hnotin : a.key ∉ childKeys rest := by
        rw [← hk]
        exact fun hmem => hnd.1 (by simpa [childKeys] using hmem)
      simp [updateOne, hk, map_keyUpd_of_not_mem a rest hnotin]
    · simp [updateOne, hk, ih (by simpa [childKeys] using hnd.2)]

theorem Plan_concat (cs : List ChildRecord) (ps : PatchSet) (a : PatchEntry) :
    Plan cs (ps ++ [a]) = (Plan cs ps).map (fun c => if c.key = a.key then a else c) := by
  induction cs with
  | nil => rfl
  | cons c rest ih =>
    simp only [Plan, List.map_cons] at ih ⊢
    refine congrArg₂ List.cons ?_ ih
    rw [patchIndex_concat, lookup_upsert]
    by_cases hk : a.key = c.key
    · simp only [hk, if_pos rfl]
      cases hl : lookupIdx c.key (patchIndex ps) with
      | some x => simp [← hk]
      | none => simp [← hk]
    · simp only [if_neg hk]
      cases hl : lookupIdx c.key (patchIndex ps) with
      | some x =>
        have : c.key ≠ a.key := fun hh => hk hh.symm
        simp [this]
      | none =>
        have : c.key ≠ a.key := fun hh => hk hh.symm
        simp [this]

/-- Refinement: under the spec's childKey-uniqueness invariant, the effect
of the source's per-entry `updateOne` loop on the students array coincides
with the spec's Merge Planner output, so the code-level and the
spec-modelled merge semantics agree. -/
theorem applyPatchSet_refines_Plan (cs : List ChildRecord) (ps : PatchSet)
    (hnd : (childKeys cs).Nodup) : applyPatchSet cs ps = Plan cs ps := by
  induction ps using List.reverseRecOn with
  | nil =>
    rw [Plan_nil]
    rfl
  | append_singleton ps a ih =>
    rw [applyPatchSet_append]
    have hstep : applyPatchSet (applyPatchSet cs ps) [a]
        = updateOne (applyPatchSet cs ps) a := rfl
    rw [hstep, ih, Plan_concat]
    apply updateOne_eq_map_of_nodup
    rw [childKeys_Plan]
    exact hnd
